/-
Verification of the sugarmaker WASM mining core.

Shallow embedding of:
  * src/wasm/src/fulltest.c            (fulltest)
  * src/wasm/src/wasm-wrapper.c        (scan_tidecoin_hash, hashes_done)
  * src/wasm/yespower-1.0.1/yespower-platform.c
                                       (alloc_region, init_region, free_region)

Bytes are modelled as `Nat` (values < 256 on well-formed buffers), 32-bit
words as `Nat` (values < 2^32), and machine arithmetic wraps explicitly
with `% 2 ^ 32`.  The WASM target is little-endian, so `le32dec` of bytes
stored in host order is the identity on the stored word; the embedding
works at the byte level and decodes words with `le32dec` exactly where the
C code reads 32-bit words from the byte buffers.
-/
import Mathlib


/-! ## Definitions -/

/-- le32dec on four bytes: `p[0] | p[1]<<8 | p[2]<<16 | p[3]<<24`. -/
def le32dec (b0 b1 b2 b3 : Nat) : Nat :=
  b0 + 2 ^ 8 * b1 + 2 ^ 16 * b2 + 2 ^ 24 * b3

/-- Little-endian decode of the 4 bytes of `b` starting at offset `off`. -/
def le32at (b : List Nat) (off : Nat) : Nat :=
  le32dec (b.getD off 0) (b.getD (off + 1) 0) (b.getD (off + 2) 0) (b.getD (off + 3) 0)

/-- be32enc: big-endian byte encoding of a 32-bit word. -/
def be32enc (w : Nat) : List Nat :=
  [w / 2 ^ 24 % 2 ^ 8, w / 2 ^ 16 % 2 ^ 8, w / 2 ^ 8 % 2 ^ 8, w % 2 ^ 8]

/-- le32enc: little-endian byte encoding of a 32-bit word. -/
def le32enc (w : Nat) : List Nat :=
  [w % 2 ^ 8, w / 2 ^ 8 % 2 ^ 8, w / 2 ^ 16 % 2 ^ 8, w / 2 ^ 24 % 2 ^ 8]

/-- The 8 little-endian 32-bit words of a 32-byte buffer, as read through
`(uint32_t *)` on the little-endian WASM host. -/
def words8 (b : List Nat) : List Nat :=
  [le32at b 0, le32at b 4, le32at b 8, le32at b 12,
   le32at b 16, le32at b 20, le32at b 24, le32at b 28]

/-- Loop body of `fulltest` at index `i`, recursing to `i - 1`. -/
def fulltestAux (hash target : List Nat) : Nat → Bool
  | 0 =>
      if hash.getD 0 0 > target.getD 0 0 then false
      else if hash.getD 0 0 < target.getD 0 0 then true
      else true
  | (j + 1) =>
      if hash.getD (j + 1) 0 > target.getD (j + 1) 0 then false
      else if hash.getD (j + 1) 0 < target.getD (j + 1) 0 then true
      else fulltestAux hash target j

/-- `fulltest(hash, target)` from src/wasm/src/fulltest.c: limb-wise
comparison starting at the most-significant limb, index 7. -/
def fulltest (hash target : List Nat) : Bool :=
  fulltestAux hash target 7

/-- Value of the limbs `0 .. i` of `xs` as a base-2^32 integer, limb `i`
most significant. -/
def valTo (xs : List Nat) : Nat → Nat
  | 0 => xs.getD 0 0
  | (j + 1) => xs.getD (j + 1) 0 * 2 ^ (32 * (j + 1)) + valTo xs j

/-- The 256-bit value of an 8-limb array, index 7 most significant. -/
def bigVal (xs : List Nat) : Nat :=
  valTo xs 7

/-- The 80 bytes handed to the oracle for nonce `n`: caller bytes 0..75
with `be32enc(n)` in the nonce word (bytes 76..79). -/
def headerWithNonce (header : List Nat) (n : Nat) : List Nat :=
  header.take 76 ++ be32enc n

/-- The caller-visible header after `le32enc(&block_data_ptr[19*4], n)`. -/
def setNonceLE (header : List Nat) (n : Nat) : List Nat :=
  header.take 76 ++ le32enc n

/-- Accept decision for one digest: the `le32dec(&hash.u32[7]) <= Htarg`
pre-filter, then `fulltest` on the le32dec-normalized words (the C
normalization loop `hash.u32[i] = le32dec(&hash.u32[i])` produces exactly
`words8` of the digest bytes on the little-endian host, and
`(uint32_t *)target_ptr` reads `words8` of the target bytes). -/
def scanAccept (digest target : List Nat) : Bool :=
  if le32at digest 28 ≤ le32at target 28 then
    fulltest (words8 digest) (words8 target)
  else false

/-- Outcome of a scan: return value 1 / 0 / -1 of the C function. -/
inductive ScanOutcome where
  | found (nonce : Nat)
  | notFound
  | oracleError
deriving DecidableEq, Repr

/-- Result state of `scan_tidecoin_hash`: C return value, caller-visible
header buffer, `hashes_done` static, and the ghost trace of hashed
nonces. -/
structure ScanResult where
  out : ScanOutcome
  headerOut : List Nat
  hashesDone : Nat
  trace : List Nat
deriving DecidableEq, Repr

/-- `hashes_done = n - start_nonce + 1` in 32-bit unsigned arithmetic
(all operands are `uint32_t`; `unsigned long` is 32 bits on wasm32).
Valid for any `n < 2^32` and `start ≤ 2^32`. -/
def doneCount (n start : Nat) : Nat :=
  (n + 2 ^ 32 - start + 1) % 2 ^ 32

/-- One iteration of the do-while loop at nonce `n` (already incremented),
with `fuel` bounding the remaining iterations.  The entry point supplies
`fuel = max_nonce - start_nonce + 1`, which is exact, so the `0` case is
never reached from `scan_tidecoin_hash`. -/
def scanGo (header target : List Nat) (oracle : List Nat → Option (List Nat))
    (start maxN hdPrev : Nat) : Nat → Nat → List Nat → ScanResult
  | 0, _, tr => ⟨.notFound, header, hdPrev, tr⟩
  | (fuel + 1), n, tr =>
    match oracle (headerWithNonce header n) with
    | none => ⟨.oracleError, header, hdPrev, tr ++ [n]⟩
    | some digest =>
      if scanAccept digest target then
        ⟨.found n, setNonceLE header n, doneCount n start, tr ++ [n]⟩
      else if n < maxN then
        scanGo header target oracle start maxN hdPrev fuel ((n + 1) % 2 ^ 32) (tr ++ [n])
      else
        ⟨.notFound, header, doneCount n start, tr ++ [n]⟩

/-- `scan_tidecoin_hash(header, target, start, maxN)` with previous
`hashes_done` value `hdPrev`.  `n = start_nonce - 1` wraps in 32-bit
arithmetic; the loop body begins with the pre-increment `++n`. -/
def scan_tidecoin_hash (header target : List Nat)
    (oracle : List Nat → Option (List Nat)) (start maxN hdPrev : Nat) : ScanResult :=
  scanGo header target oracle start maxN hdPrev (maxN - start + 1)
    (((start % 2 ^ 32 + 2 ^ 32 - 1) % 2 ^ 32 + 1) % 2 ^ 32) []

/-- yespower_region_t: pointers are `Option Nat` addresses, `none` is
NULL. -/
structure yespower_region_t where
  base : Option Nat
  aligned : Option Nat
  base_size : Nat
  aligned_size : Nat
deriving DecidableEq, Repr

/-- Result of `alloc_region`: the updated region and the returned
`aligned` pointer. -/
structure AllocResult where
  region : yespower_region_t
  ret : Option Nat
deriving DecidableEq, Repr

/-- `alloc_region(region, size)` with the result of `malloc(size + 63)`
supplied as `mallocResult` (`none` = allocation failure).  `aligned & 63`
is written as `% 64`. -/
def alloc_region (size : Nat) (mallocResult : Option Nat) : AllocResult :=
  match mallocResult with
  | some base =>
      let aligned := base + 63 - (base + 63) % 64
      ⟨⟨some base, some aligned, size + 63, size⟩, some aligned⟩
  | none => ⟨⟨none, none, 0, 0⟩, none⟩

/-- `init_region(region)`: the empty sentinel state. -/
def init_region : yespower_region_t :=
  ⟨none, none, 0, 0⟩

/-- Result of `free_region`: updated region, C return value, and the
ghost list of handles passed to `free`. -/
structure FreeResult where
  region : yespower_region_t
  ret : Int
  freed : List Nat
deriving DecidableEq, Repr

/-- `free_region(region)`: frees `region->base` when non-NULL, then
resets the region via `init_region` and returns 0. -/
def free_region (region : yespower_region_t) : FreeResult :=
  match region.base with
  | some b => ⟨init_region, 0, [b]⟩
  | none => ⟨init_region, 0, []⟩

/-- Stopping condition of the loop body at nonce `j`: oracle failure or
accepted digest; the do-while continues exactly while this is false and
`n < max_nonce`. -/
def nonceStops (h t : List Nat) (o : List Nat → Option (List Nat)) (j : Nat) : Bool :=
  match o (headerWithNonce h j) with
  | none => true
  | some d => scanAccept d t

/-- The winning nonce reported by an outcome, if any. -/
def nonceOf : ScanOutcome → Option Nat
  | .found k => some k
  | .notFound => none
  | .oracleError => none

/-! ## Theorems -/

theorem valTo_lt (xs : List Nat) (i : Nat)
    (hb : ∀ j, j ≤ i → xs.getD j 0 < 2 ^ 32) :
    valTo xs i < 2 ^ (32 * (i + 1)) := by
  induction i with
  | zero =>
      simpa [valTo] using hb 0 (Nat.le_refl 0)
  | succ j ih =>
      have hx : xs.getD (j + 1) 0 < 2 ^ 32 := hb (j + 1) (Nat.le_refl _)
      have hv : valTo xs j < 2 ^ (32 * (j + 1)) :=
        ih (fun k hk => hb k (Nat.le_trans hk (Nat.le_succ _)))
      have hpow : 2 ^ (32 * (j + 1 + 1)) = 2 ^ 32 * 2 ^ (32 * (j + 1)) := by
        rw [← pow_add]; ring_nf
      have hstep : xs.getD (j + 1) 0 * 2 ^ (32 * (j + 1)) + valTo xs j
          < (xs.getD (j + 1) 0 + 1) * 2 ^ (32 * (j + 1)) := by
        have := Nat.add_lt_add_left hv (xs.getD (j + 1) 0 * 2 ^ (32 * (j + 1)))
        calc xs.getD (j + 1) 0 * 2 ^ (32 * (j + 1)) + valTo xs j
            < xs.getD (j + 1) 0 * 2 ^ (32 * (j + 1)) + 2 ^ (32 * (j + 1)) := this
          _ = (xs.getD (j + 1) 0 + 1) * 2 ^ (32 * (j + 1)) := by ring
      have hle : (xs.getD (j + 1) 0 + 1) * 2 ^ (32 * (j + 1))
          ≤ 2 ^ 32 * 2 ^ (32 * (j + 1)) :=
        Nat.mul_le_mul_right _ hx
      calc valTo xs (j + 1)
          = xs.getD (j + 1) 0 * 2 ^ (32 * (j + 1)) + valTo xs j := rfl
        _ < (xs.getD (j + 1) 0 + 1) * 2 ^ (32 * (j + 1)) := hstep
        _ ≤ 2 ^ 32 * 2 ^ (32 * (j + 1)) := hle
        _ = 2 ^ (32 * (j + 1 + 1)) := hpow.symm

theorem fulltestAux_le_iff (h t : List Nat) (i : Nat)
    (hh : ∀ j, j ≤ i → h.getD j 0 < 2 ^ 32)
    (ht : ∀ j, j ≤ i → t.getD j 0 < 2 ^ 32) :
    (fulltestAux h t i = true ↔ valTo h i ≤ valTo t i) := by
  induction i with
  | zero =>
      simp only [fulltestAux, valTo]
      rcases Nat.lt_trichotomy (h.getD 0 0) (t.getD 0 0) with hc | hc | hc
      · simp [Nat.not_lt.mpr (Nat.le_of_lt hc) , hc, Nat.le_of_lt hc]
      · simp [hc]
      · simp [hc, Nat.not_le.mpr hc, Nat.lt_asymm hc]
  | succ j ih =>
      have hvh : valTo h j < 2 ^ (32 * (j + 1)) :=
        valTo_lt h j (fun k hk => hh k (Nat.le_trans hk (Nat.le_succ _)))
      have hvt : valTo t j < 2 ^ (32 * (j + 1)) :=
        valTo_lt t j (fun k hk => ht k (Nat.le_trans hk (Nat.le_succ _)))
      have hrec := ih (fun k hk => hh k (Nat.le_trans hk (Nat.le_succ _)))
        (fun k hk => ht k (Nat.le_trans hk (Nat.le_succ _)))
      simp only [fulltestAux, valTo]
      rcases Nat.lt_trichotomy (h.getD (j + 1) 0) (t.getD (j + 1) 0) with hc | hc | hc
      · have hlt : h.getD (j + 1) 0 * 2 ^ (32 * (j + 1)) + valTo h j
            < t.getD (j + 1) 0 * 2 ^ (32 * (j + 1)) + valTo t j := by
          have h1 : h.getD (j + 1) 0 + 1 ≤ t.getD (j + 1) 0 := hc
          calc h.getD (j + 1) 0 * 2 ^ (32 * (j + 1)) + valTo h j
              < h.getD (j + 1) 0 * 2 ^ (32 * (j + 1)) + 2 ^ (32 * (j + 1)) :=
                Nat.add_lt_add_left hvh _
            _ = (h.getD (j + 1) 0 + 1) * 2 ^ (32 * (j + 1)) := by ring
            _ ≤ t.getD (j + 1) 0 * 2 ^ (32 * (j + 1)) :=
                Nat.mul_le_mul_right _ h1
            _ ≤ t.getD (j + 1) 0 * 2 ^ (32 * (j + 1)) + valTo t j :=
                Nat.le_add_right _ _
        rw [if_neg (Nat.lt_asymm hc), if_pos hc]
        exact iff_of_true rfl (Nat.le_of_lt hlt)
      · rw [if_neg (by rw [hc]; exact Nat.lt_irrefl _),
            if_neg (by rw [hc]; exact Nat.lt_irrefl _), hc]
        exact hrec.trans (add_le_add_iff_left _).symm
      · have hlt : t.getD (j + 1) 0 * 2 ^ (32 * (j + 1)) + valTo t j
            < h.getD (j + 1) 0 * 2 ^ (32 * (j + 1)) + valTo h j := by
          have h1 : t.getD (j + 1) 0 + 1 ≤ h.getD (j + 1) 0 := hc
          calc t.getD (j + 1) 0 * 2 ^ (32 * (j + 1)) + valTo t j
              < t.getD (j + 1) 0 * 2 ^ (32 * (j + 1)) + 2 ^ (32 * (j + 1)) :=
                Nat.add_lt_add_left hvt _
            _ = (t.getD (j + 1) 0 + 1) * 2 ^ (32 * (j + 1)) := by ring
            _ ≤ h.getD (j + 1) 0 * 2 ^ (32 * (j + 1)) :=
                Nat.mul_le_mul_right _ h1
            _ ≤ h.getD (j + 1) 0 * 2 ^ (32 * (j + 1)) + valTo h j :=
                Nat.le_add_right _ _
        rw [if_pos hc]
        exact iff_of_false (by simp) (Nat.not_le.mpr hlt)

theorem fulltest_self (t : List Nat) : fulltest t t = true := by
  show fulltestAux t t 7 = true
  have : ∀ i, fulltestAux t t i = true := by
    intro i
    induction i with
    | zero => simp [fulltestAux]
    | succ j ih => simp [fulltestAux, ih]
  exact this 7

/-- C1: `fulltest(d, t)` returns true exactly when the 256-bit value of
`d` (limb 7 most significant) is at most that of `t`; in particular
`fulltest(t, t) = true`. -/
theorem c1_fulltest_le_iff (d t : List Nat)
    (hd : ∀ j, j < 8 → d.getD j 0 < 2 ^ 32)
    (ht : ∀ j, j < 8 → t.getD j 0 < 2 ^ 32) :
    (fulltest d t = true ↔ bigVal d ≤ bigVal t) ∧ fulltest t t = true := by
  refine ⟨?_, fulltest_self t⟩
  exact fulltestAux_le_iff d t 7
    (fun j hj => hd j (Nat.lt_succ_of_le hj))
    (fun j hj => ht j (Nat.lt_succ_of_le hj))

/-- Witness for C1 at a concrete digest/target pair. -/
theorem c1_fulltest_le_iff_witness :
    (fulltest [1, 2, 3, 4, 5, 6, 7, 8] [8, 7, 6, 5, 4, 3, 2, 9] = true ↔
      bigVal [1, 2, 3, 4, 5, 6, 7, 8] ≤ bigVal [8, 7, 6, 5, 4, 3, 2, 9]) ∧
    fulltest [8, 7, 6, 5, 4, 3, 2, 9] [8, 7, 6, 5, 4, 3, 2, 9] = true :=
  c1_fulltest_le_iff [1, 2, 3, 4, 5, 6, 7, 8] [8, 7, 6, 5, 4, 3, 2, 9]
    (by decide) (by decide)

theorem fulltest_top_gt (digest target : List Nat)
    (h : le32at target 28 < le32at digest 28) :
    fulltest (words8 digest) (words8 target) = false := by
  show fulltestAux (words8 digest) (words8 target) 7 = false
  have h7 : (words8 target).getD 7 0 < (words8 digest).getD 7 0 := h
  show (if (words8 digest).getD 7 0 > (words8 target).getD 7 0 then false
    else if (words8 digest).getD 7 0 < (words8 target).getD 7 0 then true
    else fulltestAux (words8 digest) (words8 target) 6) = false
  rw [if_pos h7]

/-- C2: the top-word pre-filter is sound: the scan's accept decision
(`scanAccept`, pre-filter then fulltest) equals fulltest's decision on
every digest, and whenever the pre-filter skips (top digest word strictly
greater than the raw target word 7), fulltest would have returned
false. -/
theorem c2_prefilter_sound (digest target : List Nat) :
    scanAccept digest target = fulltest (words8 digest) (words8 target) ∧
    (le32at target 28 < le32at digest 28 →
      fulltest (words8 digest) (words8 target) = false) := by
  constructor
  · by_cases hle : le32at digest 28 ≤ le32at target 28
    · simp [scanAccept, hle]
    · have hf := fulltest_top_gt digest target (Nat.lt_of_not_le hle)
      simp [scanAccept, hle, hf]
  · exact fulltest_top_gt digest target

/-- Witness for C2 on a concrete skipped digest. -/
theorem c2_prefilter_sound_witness :
    scanAccept (List.replicate 32 255) (List.replicate 32 0) =
      fulltest (words8 (List.replicate 32 255)) (words8 (List.replicate 32 0)) ∧
    fulltest (words8 (List.replicate 32 255)) (words8 (List.replicate 32 0)) = false :=
  ⟨(c2_prefilter_sound (List.replicate 32 255) (List.replicate 32 0)).1,
   (c2_prefilter_sound (List.replicate 32 255) (List.replicate 32 0)).2 (by decide)⟩

/-- C8: on malloc success `alloc_region` stores the 64-byte-aligned
pointer inside the `size + 63`-byte allocation with
`base_size = size + 63`, `aligned_size = size`; on malloc failure the
region is the empty sentinel with both sizes zero. -/
theorem c8_alloc_region_spec (size base : Nat) :
    ((alloc_region size (some base)).region.base = some base ∧
     (alloc_region size (some base)).region.aligned =
       some (base + 63 - (base + 63) % 64) ∧
     (base + 63 - (base + 63) % 64) % 64 = 0 ∧
     base ≤ base + 63 - (base + 63) % 64 ∧
     base + 63 - (base + 63) % 64 + size ≤ base + (size + 63) ∧
     (alloc_region size (some base)).region.base_size = size + 63 ∧
     (alloc_region size (some base)).region.aligned_size = size ∧
     (alloc_region size (some base)).ret =
       (alloc_region size (some base)).region.aligned) ∧
    ((alloc_region size none).region = init_region ∧
     (alloc_region size none).ret = none) := by
  refine ⟨⟨rfl, rfl, ?_, ?_, ?_, rfl, rfl, rfl⟩, rfl, rfl⟩ <;> omega

/-- C9: `free_region` always resets the region to the empty sentinel and
returns 0, and freeing an already-released region is a no-op that frees
nothing and is not an error. -/
theorem c9_free_region_idempotent (r : yespower_region_t) :
    (free_region r).region = init_region ∧
    (free_region r).ret = 0 ∧
    free_region (free_region r).region = ⟨init_region, 0, []⟩ := by
  rcases r with ⟨b, a, bs, as⟩
  cases b <;> simp [free_region, init_region]

theorem scan_init_nonce (start : Nat) (h : start < 2 ^ 32) :
    ((start % 2 ^ 32 + 2 ^ 32 - 1) % 2 ^ 32 + 1) % 2 ^ 32 = start := by
  have h32 : (2 : Nat) ^ 32 = 4294967296 := by norm_num
  rw [h32] at *
  omega

theorem scan_eq_go (header target : List Nat) (o : List Nat → Option (List Nat))
    (start maxN hd : Nat) (h : start < 2 ^ 32) :
    scan_tidecoin_hash header target o start maxN hd =
      scanGo header target o start maxN hd (maxN - start + 1) start [] := by
  unfold scan_tidecoin_hash
  rw [scan_init_nonce start h]

theorem doneCount_eq (n s : Nat) (hs : s ≤ n) (_hn : n < 2 ^ 32) :
    doneCount n s = (n - s + 1) % 2 ^ 32 := by
  have h32 : (2 : Nat) ^ 32 = 4294967296 := by norm_num
  unfold doneCount
  rw [h32] at *
  omega

theorem scanGo_step_none (h t : List Nat) (o : List Nat → Option (List Nat))
    (s m hd f n : Nat) (tr : List Nat)
    (ho : o (headerWithNonce h n) = none) :
    scanGo h t o s m hd (f + 1) n tr = ⟨.oracleError, h, hd, tr ++ [n]⟩ := by
  simp only [scanGo, ho]

theorem scanGo_step_accept (h t : List Nat) (o : List Nat → Option (List Nat))
    (s m hd f n : Nat) (tr d : List Nat)
    (ho : o (headerWithNonce h n) = some d) (hacc : scanAccept d t = true) :
    scanGo h t o s m hd (f + 1) n tr =
      ⟨.found n, setNonceLE h n, doneCount n s, tr ++ [n]⟩ := by
  simp only [scanGo, ho]
  rw [if_pos hacc]

theorem scanGo_step_cont (h t : List Nat) (o : List Nat → Option (List Nat))
    (s m hd f n : Nat) (tr d : List Nat)
    (ho : o (headerWithNonce h n) = some d) (hacc : scanAccept d t = false)
    (hlt : n < m) :
    scanGo h t o s m hd (f + 1) n tr =
      scanGo h t o s m hd f ((n + 1) % 2 ^ 32) (tr ++ [n]) := by
  simp only [scanGo, ho]
  rw [if_neg (by simp [hacc]), if_pos hlt]

theorem scanGo_step_last (h t : List Nat) (o : List Nat → Option (List Nat))
    (s m hd f n : Nat) (tr d : List Nat)
    (ho : o (headerWithNonce h n) = some d) (hacc : scanAccept d t = false)
    (hlt : ¬ n < m) :
    scanGo h t o s m hd (f + 1) n tr =
      ⟨.notFound, h, doneCount n s, tr ++ [n]⟩ := by
  simp only [scanGo, ho]
  rw [if_neg (by simp [hacc]), if_neg hlt]

theorem scanGo_no_stop (h t : List Nat) (o : List Nat → Option (List Nat))
    (s m hd : Nat) (hm : m < 2 ^ 32) :
    ∀ fuel n tr, n ≤ m → fuel = m - n + 1 →
      (∀ j, n ≤ j → j ≤ m → nonceStops h t o j = false) →
      scanGo h t o s m hd fuel n tr =
        ⟨.notFound, h, doneCount m s, tr ++ List.range' n fuel⟩ := by
  intro fuel
  induction fuel with
  | zero => intro n tr _ hf; omega
  | succ f ih =>
      intro n tr hn hf hstop
      have hsn : nonceStops h t o n = false := hstop n (Nat.le_refl n) hn
      unfold nonceStops at hsn
      cases ho : o (headerWithNonce h n) with
      | none => rw [ho] at hsn; simp at hsn
      | some d =>
          rw [ho] at hsn
          simp only at hsn
          by_cases hlt : n < m
          · rw [scanGo_step_cont h t o s m hd f n tr d ho hsn hlt]
            rw [Nat.mod_eq_of_lt (by omega : n + 1 < 2 ^ 32)]
            rw [ih (n + 1) (tr ++ [n]) (by omega) (by omega)
              (fun j hj1 hj2 => hstop j (by omega) hj2)]
            have harr : tr ++ [n] ++ List.range' (n + 1) f =
                tr ++ List.range' n (f + 1) := by
              simp [List.append_assoc, List.range'_succ]
            rw [harr]
          · rw [scanGo_step_last h t o s m hd f n tr d ho hsn hlt]
            have hnm : n = m := by omega
            have hf1 : f = 0 := by omega
            subst hnm hf1
            rfl

theorem scanGo_stop_error (h t : List Nat) (o : List Nat → Option (List Nat))
    (s m hd : Nat) (hm : m < 2 ^ 32) :
    ∀ fuel n tr k, n ≤ m → fuel = m - n + 1 → n ≤ k → k ≤ m →
      (∀ j, n ≤ j → j < k → nonceStops h t o j = false) →
      o (headerWithNonce h k) = none →
      scanGo h t o s m hd fuel n tr =
        ⟨.oracleError, h, hd, tr ++ List.range' n (k - n + 1)⟩ := by
  intro fuel
  induction fuel with
  | zero => intro n tr k _ hf; omega
  | succ f ih =>
      intro n tr k hn hf hnk hkm hbefore hok
      by_cases hek : n = k
      · subst hek
        rw [scanGo_step_none h t o s m hd f n tr hok]
        have h1 : n - n + 1 = 1 := by omega
        rw [h1]
        rfl
      · have hlt : n < k := by omega
        have hsn : nonceStops h t o n = false := hbefore n (Nat.le_refl n) hlt
        unfold nonceStops at hsn
        cases ho : o (headerWithNonce h n) with
        | none => rw [ho] at hsn; simp at hsn
        | some d =>
            rw [ho] at hsn
            simp only at hsn
            rw [scanGo_step_cont h t o s m hd f n tr d ho hsn (by omega : n < m)]
            rw [Nat.mod_eq_of_lt (by omega : n + 1 < 2 ^ 32)]
            rw [ih (n + 1) (tr ++ [n]) k (by omega) (by omega) (by omega) hkm
              (fun j hj1 hj2 => hbefore j (by omega) hj2) hok]
            have h2 : k - n + 1 = (k - (n + 1) + 1) + 1 := by omega
            rw [h2]
            simp [List.append_assoc, List.range'_succ]

theorem scanGo_stop_found (h t : List Nat) (o : List Nat → Option (List Nat))
    (s m hd : Nat) (hm : m < 2 ^ 32) :
    ∀ fuel n tr k d, n ≤ m → fuel = m - n + 1 → n ≤ k → k ≤ m →
      (∀ j, n ≤ j → j < k → nonceStops h t o j = false) →
      o (headerWithNonce h k) = some d → scanAccept d t = true →
      scanGo h t o s m hd fuel n tr =
        ⟨.found k, setNonceLE h k, doneCount k s,
          tr ++ List.range' n (k - n + 1)⟩ := by
  intro fuel
  induction fuel with
  | zero => intro n tr k d _ hf; omega
  | succ f ih =>
      intro n tr k d hn hf hnk hkm hbefore hok hacc
      by_cases hek : n = k
      · subst hek
        rw [scanGo_step_accept h t o s m hd f n tr d hok hacc]
        have h1 : n - n + 1 = 1 := by omega
        rw [h1]
        rfl
      · have hlt : n < k := by omega
        have hsn : nonceStops h t o n = false := hbefore n (Nat.le_refl n) hlt
        unfold nonceStops at hsn
        cases ho : o (headerWithNonce h n) with
        | none => rw [ho] at hsn; simp at hsn
        | some dn =>
            rw [ho] at hsn
            simp only at hsn
            rw [scanGo_step_cont h t o s m hd f n tr dn ho hsn (by omega : n < m)]
            rw [Nat.mod_eq_of_lt (by omega : n + 1 < 2 ^ 32)]
            rw [ih (n + 1) (tr ++ [n]) k d (by omega) (by omega) (by omega) hkm
              (fun j hj1 hj2 => hbefore j (by omega) hj2) hok hacc]
            have h2 : k - n + 1 = (k - (n + 1) + 1) + 1 := by omega
            rw [h2]
            simp [List.append_assoc, List.range'_succ]

theorem stops_classify (h t : List Nat) (o : List Nat → Option (List Nat))
    (a b : Nat) :
    (∀ j, a ≤ j → j ≤ b → nonceStops h t o j = false) ∨
    (∃ k, a ≤ k ∧ k ≤ b ∧ nonceStops h t o k = true ∧
      ∀ j, a ≤ j → j < k → nonceStops h t o j = false) := by
  by_cases hex : ∃ k, (a ≤ k ∧ k ≤ b) ∧ nonceStops h t o k = true
  · right
    have hk := Nat.find_spec hex
    refine ⟨Nat.find hex, hk.1.1, hk.1.2, hk.2, ?_⟩
    intro j hja hjk
    cases hb : nonceStops h t o j with
    | false => rfl
    | true => exact absurd ⟨⟨hja, by omega⟩, hb⟩ (Nat.find_min hex hjk)
  · left
    intro j hja hjb
    cases hb : nonceStops h t o j with
    | false => rfl
    | true => exact absurd ⟨j, ⟨hja, hjb⟩, hb⟩ hex

theorem scanGo_headerOut (h t : List Nat) (o : List Nat → Option (List Nat))
    (s m hd : Nat) :
    ∀ fuel n tr,
      (((scanGo h t o s m hd fuel n tr).out = .notFound ∨
        (scanGo h t o s m hd fuel n tr).out = .oracleError) →
        (scanGo h t o s m hd fuel n tr).headerOut = h) ∧
      (∀ k, (scanGo h t o s m hd fuel n tr).out = .found k →
        (scanGo h t o s m hd fuel n tr).headerOut = setNonceLE h k) := by
  intro fuel
  induction fuel with
  | zero =>
      intro n tr
      exact ⟨fun _ => rfl, fun k hk => by simp [scanGo] at hk⟩
  | succ f ih =>
      intro n tr
      cases ho : o (headerWithNonce h n) with
      | none =>
          rw [scanGo_step_none h t o s m hd f n tr ho]
          exact ⟨fun _ => rfl, fun k hk => by simp at hk⟩
      | some d =>
          cases hacc : scanAccept d t with
          | true =>
              rw [scanGo_step_accept h t o s m hd f n tr d ho hacc]
              refine ⟨fun hout => ?_, fun k hk => ?_⟩
              · simp at hout
              · simp only [ScanOutcome.found.injEq] at hk
                rw [← hk]
          | false =>
              by_cases hlt : n < m
              · rw [scanGo_step_cont h t o s m hd f n tr d ho hacc hlt]
                exact ih ((n + 1) % 2 ^ 32) (tr ++ [n])
              · rw [scanGo_step_last h t o s m hd f n tr d ho hacc hlt]
                exact ⟨fun _ => rfl, fun k hk => by simp at hk⟩

/-- C10: with `start ≤ max_nonce < 2^32`, the wrapping initialization
`n = start_nonce - 1` followed by the pre-increment makes the first hashed
nonce exactly `start_nonce`, and the hashed nonces form an initial segment
of `start_nonce, …, max_nonce`, never leaving that range. -/
theorem c10_nonce_range (header target : List Nat) (o : List Nat → Option (List Nat))
    (start maxN hdPrev : Nat) (h1 : start ≤ maxN) (h2 : maxN < 2 ^ 32)
    (r : ScanResult) (hr : r = scan_tidecoin_hash header target o start maxN hdPrev) :
    r.trace.head? = some start ∧
    (∃ len, 1 ≤ len ∧ len ≤ maxN - start + 1 ∧ r.trace = List.range' start len) ∧
    (∀ j, j ∈ r.trace → start ≤ j ∧ j ≤ maxN) := by
  subst hr
  rw [scan_eq_go header target o start maxN hdPrev (by omega)]
  have hmain : ∃ len, 1 ≤ len ∧ len ≤ maxN - start + 1 ∧
      (scanGo header target o start maxN hdPrev (maxN - start + 1) start []).trace =
        List.range' start len := by
    rcases stops_classify header target o start maxN with hall | ⟨k, hk1, hk2, hkstop, hkbefore⟩
    · rw [scanGo_no_stop header target o start maxN hdPrev h2 (maxN - start + 1) start []
        h1 rfl hall]
      exact ⟨maxN - start + 1, by omega, by omega, by simp⟩
    · unfold nonceStops at hkstop
      cases hok : o (headerWithNonce header k) with
      | none =>
          rw [scanGo_stop_error header target o start maxN hdPrev h2 (maxN - start + 1)
            start [] k h1 rfl hk1 hk2 hkbefore hok]
          exact ⟨k - start + 1, by omega, by omega, by simp⟩
      | some d =>
          rw [hok] at hkstop
          simp only at hkstop
          rw [scanGo_stop_found header target o start maxN hdPrev h2 (maxN - start + 1)
            start [] k d h1 rfl hk1 hk2 hkbefore hok hkstop]
          exact ⟨k - start + 1, by omega, by omega, by simp⟩
  obtain ⟨len, hlen1, hlen2, htr⟩ := hmain
  refine ⟨?_, ⟨len, hlen1, hlen2, htr⟩, ?_⟩
  · rw [htr]
    obtain ⟨l, rfl⟩ : ∃ l, len = l + 1 := ⟨len - 1, by omega⟩
    rw [List.range'_succ]
    rfl
  · intro j hj
    rw [htr] at hj
    rw [List.mem_range'_1] at hj
    omega

/-- Witness for C10: start 0 exercises the 32-bit wrap of
`start_nonce - 1`, and the first nonce hashed is 0. -/
theorem c10_nonce_range_witness :
    (scan_tidecoin_hash (List.replicate 80 0) (List.replicate 32 255)
        (fun _ => some (List.replicate 32 0)) 0 1 0).trace.head? = some 0 :=
  (c10_nonce_range (List.replicate 80 0) (List.replicate 32 255)
    (fun _ => some (List.replicate 32 0)) 0 1 0 (by decide) (by norm_num) _ rfl).1

/-- C6: the caller-visible header buffer is unchanged on NotFound and on
oracle failure; on Found k only the last 4 bytes change (to the encoded
nonce), the first 76 bytes and the length are preserved.  (The target
buffer is never written: the model threads it read-only, exactly as the C
code never stores through `target_ptr`.) -/
theorem c6_frame (header target : List Nat) (o : List Nat → Option (List Nat))
    (start maxN hdPrev : Nat) (hlen : header.length = 80)
    (r : ScanResult) (hr : r = scan_tidecoin_hash header target o start maxN hdPrev) :
    ((r.out = .notFound ∨ r.out = .oracleError) → r.headerOut = header) ∧
    (∀ k, r.out = .found k →
      r.headerOut = header.take 76 ++ le32enc k ∧
      r.headerOut.length = 80 ∧
      (∀ i, i < 76 → r.headerOut.getD i 0 = header.getD i 0)) := by
  subst hr
  unfold scan_tidecoin_hash
  have hball := scanGo_headerOut header target o start maxN hdPrev (maxN - start + 1)
    (((start % 2 ^ 32 + 2 ^ 32 - 1) % 2 ^ 32 + 1) % 2 ^ 32) []
  refine ⟨hball.1, fun k hk => ?_⟩
  have hOut := hball.2 k hk
  refine ⟨hOut, ?_, ?_⟩
  · rw [hOut]
    simp [setNonceLE, le32enc, hlen]
  · intro i hi
    rw [hOut]
    have hlt : i < (header.take 76).length := by
      simp [List.length_take, hlen]
      omega
    simp only [setNonceLE, List.getD, List.get?_eq_getElem?]
    rw [List.getElem?_append_left hlt, List.getElem?_take_of_lt hi]

/-- Witness for C6 at a concrete Found scan. -/
theorem c6_frame_witness :
    (scan_tidecoin_hash (List.replicate 80 0) (List.replicate 32 255)
        (fun _ => some (List.replicate 32 0)) 5 5 0).headerOut =
      (List.replicate 80 0).take 76 ++ le32enc 5 :=
  ((c6_frame (List.replicate 80 0) (List.replicate 32 255)
      (fun _ => some (List.replicate 32 0)) 5 5 0 (by simp) _ rfl).2 5 (by decide)).1

/-- C3 counterexample: the code stores the winning nonce into the caller
buffer with `le32enc`, not `be32enc`: at winning nonce 1 the last 4 header
bytes are `[1,0,0,0]`, while the big-endian encoding used inside the
hashed bytes is `[0,0,0,1]`. -/
theorem c3_counterexample :
    (scan_tidecoin_hash (List.replicate 80 0) (List.replicate 32 255)
        (fun _ => some (List.replicate 32 0)) 1 1 0).out = .found 1 ∧
    ((scan_tidecoin_hash (List.replicate 80 0) (List.replicate 32 255)
        (fun _ => some (List.replicate 32 0)) 1 1 0).headerOut).drop 76 = [1, 0, 0, 0] ∧
    be32enc 1 = [0, 0, 0, 1] ∧
    ((scan_tidecoin_hash (List.replicate 80 0) (List.replicate 32 255)
        (fun _ => some (List.replicate 32 0)) 1 1 0).headerOut).drop 76 ≠ be32enc 1 := by
  decide

/-- C3 amended: on Found k the caller-visible header's last 4 bytes hold
`k` in little-endian byte order (`le32enc`), the byte-reversal of the
big-endian nonce word used inside the hashed header bytes. -/
theorem c3_nonce_writeback (header target : List Nat) (o : List Nat → Option (List Nat))
    (start maxN hdPrev k : Nat) (r : ScanResult)
    (hr : r = scan_tidecoin_hash header target o start maxN hdPrev)
    (hf : r.out = .found k) :
    r.headerOut = header.take 76 ++ le32enc k ∧
    le32enc k = (be32enc k).reverse := by
  subst hr
  unfold scan_tidecoin_hash at *
  exact ⟨(scanGo_headerOut header target o start maxN hdPrev _ _ _).2 k hf, rfl⟩

/-- Witness for the amended C3 at winning nonce 1. -/
theorem c3_nonce_writeback_witness :
    (scan_tidecoin_hash (List.replicate 80 0) (List.replicate 32 255)
        (fun _ => some (List.replicate 32 0)) 1 1 0).headerOut =
      (List.replicate 80 0).take 76 ++ le32enc 1 ∧
    le32enc 1 = (be32enc 1).reverse :=
  c3_nonce_writeback (List.replicate 80 0) (List.replicate 32 255)
    (fun _ => some (List.replicate 32 0)) 1 1 0 1 _ rfl (by decide)

/-- C4: evaluation at the failing input.  With previous counter value 5,
an oracle failing at the very first nonce (start = max = 0) returns the
error outcome after exactly one oracle invocation, but leaves
`hashes_done` at the stale 5 instead of the 0 hashes completed before the
failure (the C code returns -1 without updating the counter). -/
theorem c4_hashes_done_stale :
    (scan_tidecoin_hash (List.replicate 80 0) (List.replicate 32 255)
        (fun _ => none) 0 0 5).out = .oracleError ∧
    (scan_tidecoin_hash (List.replicate 80 0) (List.replicate 32 255)
        (fun _ => none) 0 0 5).hashesDone = 5 ∧
    (scan_tidecoin_hash (List.replicate 80 0) (List.replicate 32 255)
        (fun _ => none) 0 0 5).trace = [0] ∧
    ¬ (scan_tidecoin_hash (List.replicate 80 0) (List.replicate 32 255)
        (fun _ => none) 0 0 5).hashesDone = 0 := by
  decide

/-- C5 counterexample: on the full range start = 0, max = 2^32 - 1 with a
never-matching, never-failing oracle the scan returns NotFound but the
32-bit counter wraps to 0 ≠ max − start + 1 = 2^32. -/
theorem c5_counterexample :
    (scan_tidecoin_hash (List.replicate 80 0) (List.replicate 32 0)
        (fun _ => some (List.replicate 32 255)) 0 (2 ^ 32 - 1) 7).out = .notFound ∧
    (scan_tidecoin_hash (List.replicate 80 0) (List.replicate 32 0)
        (fun _ => some (List.replicate 32 255)) 0 (2 ^ 32 - 1) 7).hashesDone = 0 ∧
    (2 ^ 32 - 1) - 0 + 1 ≠ 0 := by
  have hrej : ∀ j, (0 : Nat) ≤ j → j ≤ 2 ^ 32 - 1 →
      nonceStops (List.replicate 80 0) (List.replicate 32 0)
        (fun _ => some (List.replicate 32 255)) j = false := by
    intro j _ _
    show scanAccept (List.replicate 32 255) (List.replicate 32 0) = false
    decide
  have hsc := scan_eq_go (List.replicate 80 0) (List.replicate 32 0)
      (fun _ => some (List.replicate 32 255)) 0 (2 ^ 32 - 1) 7 (by norm_num)
  have hrun := scanGo_no_stop (List.replicate 80 0) (List.replicate 32 0)
      (fun _ => some (List.replicate 32 255)) 0 (2 ^ 32 - 1) 7 (by norm_num)
      ((2 ^ 32 - 1) - 0 + 1) 0 [] (by norm_num) rfl hrej
  rw [hsc, hrun]
  refine ⟨rfl, ?_, by norm_num⟩
  show doneCount (2 ^ 32 - 1) 0 = 0
  unfold doneCount
  norm_num

/-- C5 amended: for `start ≤ max < 2^32` and a non-failing oracle, the
counter after the call is `(max − start + 1) mod 2^32` on NotFound and
`(k − start + 1) mod 2^32` on Found k, independent of the previous
counter value; the mod is the identity whenever `max − start + 1 < 2^32`,
i.e. on every scan short of the full 32-bit range. -/
theorem c5_hashes_done (header target : List Nat) (o : List Nat → Option (List Nat))
    (start maxN hdPrev : Nat) (h1 : start ≤ maxN) (h2 : maxN < 2 ^ 32)
    (hok : ∀ b, o b ≠ none) (r : ScanResult)
    (hr : r = scan_tidecoin_hash header target o start maxN hdPrev) :
    (r.out = .notFound → r.hashesDone = (maxN - start + 1) % 2 ^ 32) ∧
    (∀ k, r.out = .found k → r.hashesDone = (k - start + 1) % 2 ^ 32) ∧
    (maxN - start + 1 < 2 ^ 32 → r.out = .notFound →
      r.hashesDone = maxN - start + 1) := by
  subst hr
  rw [scan_eq_go header target o start maxN hdPrev (by omega)]
  rcases stops_classify header target o start maxN with hall | ⟨k, hk1, hk2, hkstop, hkbefore⟩
  · rw [scanGo_no_stop header target o start maxN hdPrev h2 (maxN - start + 1) start []
      h1 rfl hall]
    refine ⟨fun _ => ?_, fun k hk => ?_, fun hsm _ => ?_⟩
    · show doneCount maxN start = _
      exact doneCount_eq maxN start h1 h2
    · simp at hk
    · show doneCount maxN start = _
      rw [doneCount_eq maxN start h1 h2, Nat.mod_eq_of_lt hsm]
  · unfold nonceStops at hkstop
    cases hok2 : o (headerWithNonce header k) with
    | none => exact absurd hok2 (hok _)
    | some d =>
        rw [hok2] at hkstop
        simp only at hkstop
        rw [scanGo_stop_found header target o start maxN hdPrev h2 (maxN - start + 1)
          start [] k d h1 rfl hk1 hk2 hkbefore hok2 hkstop]
        refine ⟨fun hnf => ?_, fun k2 hk2' => ?_, fun _ hnf => ?_⟩
        · simp at hnf
        · simp only [ScanOutcome.found.injEq] at hk2'
          subst hk2'
          show doneCount k start = _
          exact doneCount_eq k start hk1 (by omega)
        · simp at hnf

/-- Witness for the amended C5: Found at the first nonce of [3, 7] gives
counter (3 − 3 + 1) mod 2^32 = 1. -/
theorem c5_hashes_done_witness :
    (scan_tidecoin_hash (List.replicate 80 0) (List.replicate 32 255)
        (fun _ => some (List.replicate 32 0)) 3 7 99).hashesDone =
      (3 - 3 + 1) % 2 ^ 32 :=
  ((c5_hashes_done (List.replicate 80 0) (List.replicate 32 255)
      (fun _ => some (List.replicate 32 0)) 3 7 99 (by decide) (by norm_num)
      (fun b => by simp) _ rfl).2.1) 3 (by decide)

/-- C7: split-scan equivalence.  For start ≤ max < max2 < 2^32 and a
deterministic oracle, scanning [start, max] and then — when the first scan
returned NotFound — [max+1, max2] on the returned header reports a winning
nonce exactly when the single scan over [start, max2] does, and the same
one; moreover on the NotFound path the two traces concatenate to exactly
the combined trace, so no nonce at the boundary is skipped or hashed
twice. -/
theorem c7_split_scan (header target : List Nat) (o : List Nat → Option (List Nat))
    (start maxN max2 hdPrev hd2 : Nat)
    (h1 : start ≤ maxN) (h2 : maxN < max2) (h3 : max2 < 2 ^ 32)
    (r1 r2 r12 : ScanResult)
    (hr1 : r1 = scan_tidecoin_hash header target o start maxN hdPrev)
    (hr2 : r2 = scan_tidecoin_hash r1.headerOut target o (maxN + 1) max2 hd2)
    (hr12 : r12 = scan_tidecoin_hash header target o start max2 hdPrev) :
    (match r1.out with
     | .found k => some k
     | .notFound => nonceOf r2.out
     | .oracleError => none) = nonceOf r12.out ∧
    (r1.out = .notFound → r1.trace ++ r2.trace = r12.trace) := by
  rcases stops_classify header target o start max2 with hall | ⟨k, hk1, hk2, hkstop, hkbefore⟩
  · have e1 : r1 = ⟨.notFound, header, doneCount maxN start,
        List.range' start (maxN - start + 1)⟩ := by
      rw [hr1, scan_eq_go header target o start maxN hdPrev (by omega)]
      exact scanGo_no_stop header target o start maxN hdPrev (by omega)
        (maxN - start + 1) start [] h1 rfl (fun j hj1 hj2 => hall j hj1 (by omega))
    have hh : r1.headerOut = header := by rw [e1]
    have e2 : r2 = ⟨.notFound, header, doneCount max2 (maxN + 1),
        List.range' (maxN + 1) (max2 - (maxN + 1) + 1)⟩ := by
      rw [hr2, hh, scan_eq_go header target o (maxN + 1) max2 hd2 (by omega)]
      exact scanGo_no_stop header target o (maxN + 1) max2 hd2 h3
        (max2 - (maxN + 1) + 1) (maxN + 1) [] (by omega) rfl
        (fun j hj1 hj2 => hall j (by omega) hj2)
    have e12 : r12 = ⟨.notFound, header, doneCount max2 start,
        List.range' start (max2 - start + 1)⟩ := by
      rw [hr12, scan_eq_go header target o start max2 hdPrev (by omega)]
      exact scanGo_no_stop header target o start max2 hdPrev h3
        (max2 - start + 1) start [] (by omega) rfl hall
    refine ⟨by rw [e1, e2, e12]; try rfl, fun _ => ?_⟩
    rw [e1, e2, e12]
    show List.range' start (maxN - start + 1) ++
        List.range' (maxN + 1) (max2 - (maxN + 1) + 1) =
      List.range' start (max2 - start + 1)
    have ha : maxN + 1 = start + (maxN - start + 1) := by omega
    rw [ha, List.range'_append_1]
    congr 1
    omega
  · unfold nonceStops at hkstop
    by_cases hkm : k ≤ maxN
    · cases hok : o (headerWithNonce header k) with
      | none =>
          have e1 : r1 = ⟨.oracleError, header, hdPrev,
              List.range' start (k - start + 1)⟩ := by
            rw [hr1, scan_eq_go header target o start maxN hdPrev (by omega)]
            exact scanGo_stop_error header target o start maxN hdPrev (by omega)
              (maxN - start + 1) start [] k h1 rfl hk1 hkm hkbefore hok
          have e12 : r12 = ⟨.oracleError, header, hdPrev,
              List.range' start (k - start + 1)⟩ := by
            rw [hr12, scan_eq_go header target o start max2 hdPrev (by omega)]
            exact scanGo_stop_error header target o start max2 hdPrev h3
              (max2 - start + 1) start [] k (by omega) rfl hk1 hk2 hkbefore hok
          exact ⟨by rw [e1, e12]; try rfl, fun hnf => by rw [e1] at hnf; simp at hnf⟩
      | some d =>
          rw [hok] at hkstop
          simp only at hkstop
          have e1 : r1 = ⟨.found k, setNonceLE header k, doneCount k start,
              List.range' start (k - start + 1)⟩ := by
            rw [hr1, scan_eq_go header target o start maxN hdPrev (by omega)]
            exact scanGo_stop_found header target o start maxN hdPrev (by omega)
              (maxN - start + 1) start [] k d h1 rfl hk1 hkm hkbefore hok hkstop
          have e12 : r12 = ⟨.found k, setNonceLE header k, doneCount k start,
              List.range' start (k - start + 1)⟩ := by
            rw [hr12, scan_eq_go header target o start max2 hdPrev (by omega)]
            exact scanGo_stop_found header target o start max2 hdPrev h3
              (max2 - start + 1) start [] k d (by omega) rfl hk1 hk2 hkbefore hok hkstop
          exact ⟨by rw [e1, e12]; try rfl, fun hnf => by rw [e1] at hnf; simp at hnf⟩
    · have e1 : r1 = ⟨.notFound, header, doneCount maxN start,
          List.range' start (maxN - start + 1)⟩ := by
        rw [hr1, scan_eq_go header target o start maxN hdPrev (by omega)]
        exact scanGo_no_stop header target o start maxN hdPrev (by omega)
          (maxN - start + 1) start [] h1 rfl
          (fun j hj1 hj2 => hkbefore j hj1 (by omega))
      have hh : r1.headerOut = header := by rw [e1]
      have hbefore2 : ∀ j, maxN + 1 ≤ j → j < k →
          nonceStops header target o j = false :=
        fun j hj1 hj2 => hkbefore j (by omega) hj2
      cases hok : o (headerWithNonce header k) with
      | none =>
          have e2 : r2 = ⟨.oracleError, header, hd2,
              List.range' (maxN + 1) (k - (maxN + 1) + 1)⟩ := by
            rw [hr2, hh, scan_eq_go header target o (maxN + 1) max2 hd2 (by omega)]
            exact scanGo_stop_error header target o (maxN + 1) max2 hd2 h3
              (max2 - (maxN + 1) + 1) (maxN + 1) [] k (by omega) rfl (by omega)
              hk2 hbefore2 hok
          have e12 : r12 = ⟨.oracleError, header, hdPrev,
              List.range' start (k - start + 1)⟩ := by
            rw [hr12, scan_eq_go header target o start max2 hdPrev (by omega)]
            exact scanGo_stop_error header target o start max2 hdPrev h3
              (max2 - start + 1) start [] k (by omega) rfl hk1 hk2 hkbefore hok
          refine ⟨by rw [e1, e2, e12]; try rfl, fun _ => ?_⟩
          rw [e1, e2, e12]
          show List.range' start (maxN - start + 1) ++
              List.range' (maxN + 1) (k - (maxN + 1) + 1) =
            List.range' start (k - start + 1)
          have ha : maxN + 1 = start + (maxN - start + 1) := by omega
          rw [ha, List.range'_append_1]
          congr 1
          omega
      | some d =>
          rw [hok] at hkstop
          simp only at hkstop
          have e2 : r2 = ⟨.found k, setNonceLE header k, doneCount k (maxN + 1),
              List.range' (maxN + 1) (k - (maxN + 1) + 1)⟩ := by
            rw [hr2, hh, scan_eq_go header target o (maxN + 1) max2 hd2 (by omega)]
            exact scanGo_stop_found header target o (maxN + 1) max2 hd2 h3
              (max2 - (maxN + 1) + 1) (maxN + 1) [] k d (by omega) rfl (by omega)
              hk2 hbefore2 hok hkstop
          have e12 : r12 = ⟨.found k, setNonceLE header k, doneCount k start,
              List.range' start (k - start + 1)⟩ := by
            rw [hr12, scan_eq_go header target o start max2 hdPrev (by omega)]
            exact scanGo_stop_found header target o start max2 hdPrev h3
              (max2 - start + 1) start [] k d (by omega) rfl hk1 hk2 hkbefore hok hkstop
          refine ⟨by rw [e1, e2, e12]; try rfl, fun _ => ?_⟩
          rw [e1, e2, e12]
          show List.range' start (maxN - start + 1) ++
              List.range' (maxN + 1) (k - (maxN + 1) + 1) =
            List.range' start (k - start + 1)
          have ha : maxN + 1 = start + (maxN - start + 1) := by omega
          rw [ha, List.range'_append_1]
          congr 1
          omega

/-- Witness for C7 on concrete bounds [0,1] then [2,3] against [0,3]. -/
theorem c7_split_scan_witness :
    (match (scan_tidecoin_hash (List.replicate 80 0) (List.replicate 32 0)
        (fun _ => some (List.replicate 32 255)) 0 1 9).out with
     | ScanOutcome.found k => some k
     | ScanOutcome.notFound =>
        nonceOf (scan_tidecoin_hash
          (scan_tidecoin_hash (List.replicate 80 0) (List.replicate 32 0)
            (fun _ => some (List.replicate 32 255)) 0 1 9).headerOut
          (List.replicate 32 0) (fun _ => some (List.replicate 32 255)) 2 3 8).out
     | ScanOutcome.oracleError => none) =
      nonceOf (scan_tidecoin_hash (List.replicate 80 0) (List.replicate 32 0)
        (fun _ => some (List.replicate 32 255)) 0 3 9).out :=
  (c7_split_scan (List.replicate 80 0) (List.replicate 32 0)
    (fun _ => some (List.replicate 32 255)) 0 1 3 9 8
    (by decide) (by decide) (by norm_num) _ _ _ rfl rfl rfl).1
